import Mathlib

/-!
github-release-downloader: a shallow embedding of `downloader.js`

The module exports five functions, each returning (or meant to return) a
promise.  The embedding keeps the functions of the source under their own
names and models

* a promise by its eventual state (`Promise`): resolved with a value,
  rejected with a reason, or never settled;
* the `semver` package by a record of the four functions the module calls
  (`Semver`); their properties are stated as `Semver.Lawful`;
* the values read from `os` and `process`, and `path.join`, by a record `Host`;
* the HTTP clients by functions of the requested address: `rpGet` gives the
  promise of `rp.get`, and `requestGet` the list of events that the request
  of `request.get` emits.
-/

namespace Downloader

/-! ## Data model -/

/-- An asset of a release, with the fields the GitHub API gives it. -/
structure Asset where
  url : String
  name : String
  content_type : String
  size : Nat
  deriving DecidableEq, Repr

/-- A release object.  The field `tag_name` is a string in the API response and is
overwritten by `getReleaseByVersion` with the value of `semver.coerce`; the type
parameter is the type of that field. -/
structure Release (τ : Type) where
  tag_name : τ
  name : String
  created_at : String
  published_at : String
  assets : List Asset
  deriving DecidableEq, Repr

/-- A `SemVer` object of the semver package; the module reads its `version` field. -/
structure SemVer where
  major : Nat
  minor : Nat
  patch : Nat
  version : String
  deriving DecidableEq, Repr

/-- Eventual state of a JavaScript promise: fulfilled with a value, rejected with a
reason, or never settled.  Once `resolve` or `reject` has been called, later calls have
no effect (`Promise.settle`). -/
inductive Promise (ε α : Type) where
  | resolved (value : α)
  | rejected (reason : ε)
  | pending
  deriving DecidableEq, Repr

/-- Calling `resolve`/`reject` on a promise: only a pending promise changes state. -/
def Promise.settle {ε α : Type} (p : Promise ε α) (outcome : Promise ε α) : Promise ε α :=
  match p with
  | .pending => outcome
  | settled => settled

/-- The functions of the `semver` package that `downloader.js` calls, as parameters.
`coerce` returns `none` for JavaScript `null`; `validRange` is the truthiness of the
value returned by `semver.validRange`; `satisfies` and `eq` receive a version string as
their first argument, as in the source. -/
structure Semver where
  coerce : String → Option SemVer
  validRange : String → Bool
  satisfies : String → String → Bool
  eq : String → SemVer → Bool

/-- Truthiness of `semver.valid(tag)` for the values the module passes to it: the value
of `semver.coerce`, i.e. a `SemVer` object (whose version string is returned) or `null`
(for which `null` is returned). -/
def valid (tag : Option SemVer) : Bool :=
  match tag with
  | some _ => true
  | none => false

/-- Properties of the semver package on which the resolution relies, for the versions
that `coerce` produces: such a version is `eq` to itself, and `satisfies` cannot
distinguish two such versions that are `eq`. -/
structure Semver.Lawful (lib : Semver) : Prop where
  eq_self : ∀ (tag : String) (v : SemVer), lib.coerce tag = some v →
    lib.eq v.version v = true
  satisfies_of_eq : ∀ (s t : String) (a b : SemVer) (range : String),
    lib.coerce s = some a → lib.coerce t = some b → lib.eq a.version b = true →
    lib.satisfies b.version range = lib.satisfies a.version range

/-! ## getReleaseList -/

/-- Source: `getReleaseList`.  `rpGet uri` is the promise returned by `rp.get` for the
request with the fixed headers; both handlers forward its outcome. -/
def getReleaseList {ε : Type} (rpGet : String → Promise ε (List (Release String)))
    (repo : String) : Promise ε (List (Release String)) :=
  match rpGet ("https://api.github.com/repos/" ++ repo ++ "/releases") with
  | .resolved releases => .resolved releases
  | .rejected err => .rejected err
  | .pending => .pending

/-! ## getReleaseByVersion -/

/-- The assignment `release.tag_name = semver.coerce(release.tag_name)`. -/
def coerceRelease (lib : Semver) (release : Release String) : Release (Option SemVer) :=
  { tag_name := lib.coerce release.tag_name
    name := release.name
    created_at := release.created_at
    published_at := release.published_at
    assets := release.assets }

/-- Reading the property `version` of a value that is a `SemVer` object, `null` or
`undefined`; `none` stands for the `TypeError` thrown in the last two cases. -/
def getVersion (v : Option SemVer) : Option String :=
  match v with
  | some s => some s.version
  | none => none

/-- `Array.prototype.filter` with a callback that may throw: elements are visited in
order, and the first exception aborts the whole call (`none`). -/
def filterThrowing {α : Type} (p : α → Option Bool) : List α → Option (List α)
  | [] => some []
  | a :: as =>
    match p a with
    | none => none
    | some keep =>
      match filterThrowing p as with
      | none => none
      | some rest => some (if keep then a :: rest else rest)

/-- Lines 70-74 of the source: `versions.shift().version`, the search with `semver.eq`
over `releases`, and `resolve(release)`.  An exception thrown here is thrown inside the
`then` handler, so the promise returned by `getReleaseByVersion` is left pending.  The
resolved value is `none` when `find` returns `undefined`. -/
def selectRelease (lib : Semver) (releases : List (Release (Option SemVer)))
    (versions : List (Option SemVer)) : Promise String (Option (Release (Option SemVer))) :=
  match versions with
  | [] => .pending
  | first :: _ =>
    match getVersion first with
    | none => .pending
    | some version =>
      .resolved (releases.find? (fun release =>
        if valid release.tag_name then
          match release.tag_name with
          | some tag => lib.eq version tag
          | none => false
        else false))

/-- The handler passed to `then` in `getReleaseByVersion` (lines 43-75), as the state in
which it leaves the promise under construction. -/
def resolveReleases (lib : Semver) (releases : List (Release String)) (range : String) :
    Promise String (Option (Release (Option SemVer))) :=
  let releases := releases.map (coerceRelease lib)
  let releases := releases.filter (fun release => valid release.tag_name)
  let versions := releases.map (fun release => release.tag_name)
  if range = "latest" then
    selectRelease lib releases versions
  else if lib.validRange range then
    match filterThrowing
        (fun version => (getVersion version).map (fun v => lib.satisfies v range)) versions with
    | none => .pending
    | some versions =>
      if versions.length = 0 then
        .rejected ("Could not find a version that satisfies range " ++ range)
      else
        selectRelease lib releases versions
  else
    .rejected ("Provided range " ++ range ++ " is not valid semver string")

/-- Source: `getReleaseByVersion`.  The only handler attached to the promise of
`getReleaseList` is the fulfilment handler; there is no rejection handler, so a failed
or unsettled listing leaves the returned promise pending.  `range` is `none` when the
argument is omitted and defaults to `'latest'`. -/
def getReleaseByVersion {ε : Type} (lib : Semver)
    (rpGet : String → Promise ε (List (Release String)))
    (repo : String) (range : Option String := none) :
    Promise String (Option (Release (Option SemVer))) :=
  let range := range.getD "latest"
  match getReleaseList rpGet repo with
  | .resolved releases => resolveReleases lib releases range
  | .rejected _ => .pending
  | .pending => .pending

/-! ## getAssetByPlatformArch -/

/-- The values read from `os` and `process`, and `path.join`. -/
structure Host where
  platform : String
  arch : String
  cwd : String
  join : String → String → String

/-- Whether the characters `needle` are the first characters of `hay`. -/
def startsWith : List Char → List Char → Bool
  | [], _ => true
  | _ :: _, [] => false
  | a :: as, b :: bs => a == b && startsWith as bs

/-- Whether `needle` occurs in `hay` at some position. -/
def includesChars (needle : List Char) : List Char → Bool
  | [] => startsWith needle []
  | c :: cs => startsWith needle (c :: cs) || includesChars needle cs

/-- `String.prototype.includes`: `includes s t` is `s.includes(t)`. -/
def includes (s t : String) : Bool :=
  includesChars t.data s.data

/-- The rewriting of `arch` on lines 92-94. -/
def rewriteArch (arch : String) : String :=
  if arch = "x64" then "64" else arch

/-- Source: `getAssetByPlatformArch`.  The executor runs synchronously; `platform` and
`arch` are `none` when omitted and default to the host values.  `assets.pop()` on the
non-empty filtered array is its last element. -/
def getAssetByPlatformArch {τ : Type} (host : Host) (release : Release τ)
    (platform : Option String := none) (arch : Option String := none) :
    Promise String Asset :=
  let platform := platform.getD host.platform
  let arch := arch.getD host.arch
  let assets := release.assets
  let arch := if arch = "x64" then "64" else arch
  let assets := assets.filter (fun asset => includes asset.name platform && includes asset.name arch)
  match assets.getLast? with
  | some asset => .resolved asset
  | none =>
    .rejected ("An asset could not be found for platform " ++ platform ++ " with arch " ++ arch)

/-! ## downloadAsset -/

/-- A byte of a response body. -/
abbrev Byte := Fin 256

/-- The events emitted by the request returned by `request.get(url)`. -/
inductive StreamEvent where
  | data (chunk : List Byte)
  | error (err : String)
  | finished
  deriving DecidableEq, Repr

/-- The value of the `progress` argument: `null` (also the default), a function, or any
other value. -/
inductive Progress where
  | null
  | callback
  | other
  deriving DecidableEq, Repr

/-- What a call of `downloadAsset` has produced after some events: the state of the
returned promise, the arguments of the calls of `progress` so far (oldest first), the
path of the write stream and the bytes piped into it. -/
structure Download where
  promise : Promise String String
  calls : List Nat
  target : String
  written : List Byte
  deriving DecidableEq, Repr

/-- The body of the executor of `downloadAsset` up to the registration of the handlers:
the write stream is created, and a `progress` that is neither a function nor `null`
rejects the promise at once. -/
def Download.start (host : Host) (name dir : String) (progress : Progress) : Download :=
  { promise :=
      match progress with
      | .other => .rejected "Progress is not a valid callback"
      | _ => .pending
    calls := []
    target := host.join dir name
    written := [] }

/-- One event of the request: `pipe` appends a chunk to the file, the `data` handler
(registered only for a function) calls `progress(chunk.length)`, the `error` handler
rejects and the `end` handler resolves with `path.join(dir, name)`. -/
def Download.step (host : Host) (url name dir : String) (progress : Progress)
    (d : Download) (e : StreamEvent) : Download :=
  match e with
  | .data chunk =>
    { d with
      written := d.written ++ chunk
      calls := match progress with
        | .callback => d.calls ++ [chunk.length]
        | _ => d.calls }
  | .error err =>
    { d with
      promise := d.promise.settle (.rejected
        ("Failed to download file " ++ name ++ " from url " ++ url ++ " because of " ++ err)) }
  | .finished =>
    { d with promise := d.promise.settle (.resolved (host.join dir name)) }

/-- Source: `downloadAsset`.  `requestGet url` lists the events of the request in the
order in which they are emitted; `dir` is `none` when omitted and defaults to
`process.cwd()`. -/
def downloadAsset (host : Host) (requestGet : String → List StreamEvent)
    (url name : String) (dir : Option String := none) (progress : Progress := .null) :
    Download :=
  let dir := dir.getD host.cwd
  (requestGet url).foldl (Download.step host url name dir progress)
    (Download.start host name dir progress)

/-! ## downloadAssetByPlatformArch -/

/-- What a call of `downloadAssetByPlatformArch` produces: the value it returns to its
caller (`none` for `undefined`) and the download started inside its handlers, if any. -/
structure Orchestration where
  returned : Option (Promise String String)
  download : Option Download
  deriving DecidableEq, Repr

/-- Source: `downloadAssetByPlatformArch`.  The body is a single expression statement:
the chain of `then` handlers is started and nothing is returned.  A release that is
`undefined` makes the executor of `getAssetByPlatformArch` throw, so no download
starts. -/
def downloadAssetByPlatformArch {ε : Type} (lib : Semver) (host : Host)
    (rpGet : String → Promise ε (List (Release String)))
    (requestGet : String → List StreamEvent)
    (repo : String) (range : Option String := none) (dir : Option String := none)
    (platform : Option String := none) (arch : Option String := none) : Orchestration :=
  let range := range.getD "latest"
  let dir := dir.getD host.cwd
  let platform := platform.getD host.platform
  let arch := arch.getD host.arch
  { returned := none
    download :=
      match getReleaseByVersion lib rpGet repo (some range) with
      | .resolved (some release) =>
        match getAssetByPlatformArch host release (some platform) (some arch) with
        | .resolved asset => some (downloadAsset host requestGet asset.url asset.name (some dir))
        | _ => none
      | _ => none }

/-! ## Auxiliary definitions for the statements -/

/-- The releases that survive the `semver.valid` filter. -/
def validReleases (lib : Semver) (releases : List (Release String)) :
    List (Release (Option SemVer)) :=
  (releases.map (coerceRelease lib)).filter (fun release => valid release.tag_name)

/-- The test of the `find` callback on line 72. -/
def eqCallback (lib : Semver) (version : String) (release : Release (Option SemVer)) : Bool :=
  if valid release.tag_name then
    match release.tag_name with
    | some tag => lib.eq version tag
    | none => false
  else false

/-- The test of the range filter on a tag that may be `null`. -/
def satisfiesTag (lib : Semver) (range : String) (tag : Option SemVer) : Bool :=
  match tag with
  | some v => lib.satisfies v.version range
  | none => false

/-- The chunks of a response, in the order of arrival. -/
def chunksOf : List StreamEvent → List (List Byte)
  | [] => []
  | .data chunk :: rest => chunk :: chunksOf rest
  | _ :: rest => chunksOf rest

/-- Whether an event is an `error` event. -/
def StreamEvent.isError : StreamEvent → Bool
  | .error _ => true
  | _ => false

/-- The matching test of `getAssetByPlatformArch`, with `arch` already rewritten. -/
def assetMatches (platform arch : String) (asset : Asset) : Bool :=
  includes asset.name platform && includes asset.name arch

/-! ## Sample data -/

/-- A finite fragment of the semver package, for evaluating the functions above on
concrete inputs.  It gives the values of the package on the tags `v1.0.4`, `v1.0.3`,
`v0.9.4` and `nightly` and on the ranges `^1.0`, `^7.0` and `abc`; it is not meant to
describe the package on other strings. -/
def sampleSemver : Semver where
  coerce := fun tag =>
    if tag = "v1.0.4" then some ⟨1, 0, 4, "1.0.4"⟩
    else if tag = "v1.0.3" then some ⟨1, 0, 3, "1.0.3"⟩
    else if tag = "v0.9.4" then some ⟨0, 9, 4, "0.9.4"⟩
    else none
  validRange := fun range => range = "^1.0" || range = "^7.0"
  satisfies := fun version range =>
    range = "^1.0" && (version = "1.0.4" || version = "1.0.3")
  eq := fun version tag => version = tag.version

/-- Assets of the sample releases. -/
def sampleAssets (tag : String) : List Asset :=
  [ ⟨"https://example.org/" ++ tag ++ "/linux-sum", "app-linux-amd64.sha256", "text/plain", 1⟩,
    ⟨"https://example.org/" ++ tag ++ "/linux", "app-linux-amd64.tar.gz", "application/gzip", 10⟩,
    ⟨"https://example.org/" ++ tag ++ "/win", "app-windows-amd64.zip", "application/zip", 12⟩ ]

/-- A release of the sample repository. -/
def sampleRelease (tag : String) : Release String :=
  { tag_name := tag
    name := "Release " ++ tag
    created_at := "2018-04-01T00:00:00Z"
    published_at := "2018-04-02T00:00:00Z"
    assets := sampleAssets tag }

/-- A release list in the order of the provider, newest first, with one tag that does
not coerce to a version. -/
def sampleReleases : List (Release String) :=
  [sampleRelease "nightly", sampleRelease "v1.0.4", sampleRelease "v1.0.3",
   sampleRelease "v0.9.4"]

/-- An HTTP client that answers every listing request with `sampleReleases`. -/
def sampleRpGet : String → Promise String (List (Release String)) :=
  fun _ => .resolved sampleReleases

/-- A host. -/
def sampleHost : Host where
  platform := "linux"
  arch := "x64"
  cwd := "/tmp"
  join := fun dir name => dir ++ "/" ++ name

/-- A response body that arrives in two chunks. -/
def sampleEvents : List StreamEvent :=
  [.data [1, 2, 3], .data [4, 5], .finished]

/-! ## Lemmas on the semver fragment -/

theorem sampleSemver_lawful : sampleSemver.Lawful where
  eq_self := by intro _ v _; simp [sampleSemver]
  satisfies_of_eq := by
    intro _ _ a b range _ _ h
    simp [sampleSemver] at h
    simp [sampleSemver, h]

/-! ## Lemmas on the resolution -/

theorem filterThrowing_eq_filter {α : Type} (p : α → Option Bool) (q : α → Bool)
    (l : List α) (h : ∀ a ∈ l, p a = some (q a)) :
    filterThrowing p l = some (l.filter q) := by
  induction l with
  | nil => rfl
  | cons a as ih =>
    have ha : p a = some (q a) := h a (List.mem_cons_self a as)
    have has : ∀ b ∈ as, p b = some (q b) := fun b hb => h b (List.mem_cons_of_mem a hb)
    simp only [filterThrowing, ha, ih has, List.filter_cons]

theorem valid_of_mem_validReleases (lib : Semver) (releases : List (Release String))
    (x : Release (Option SemVer)) (hx : x ∈ validReleases lib releases) :
    valid x.tag_name = true := by
  simp only [validReleases, List.mem_filter] at hx
  exact hx.2

theorem validReleases_cons_some (lib : Semver) (r : Release String)
    (rs : List (Release String)) (v : SemVer) (h : lib.coerce r.tag_name = some v) :
    validReleases lib (r :: rs) = coerceRelease lib r :: validReleases lib rs := by
  simp [validReleases, coerceRelease, valid, h]

theorem validReleases_cons_none (lib : Semver) (r : Release String)
    (rs : List (Release String)) (h : lib.coerce r.tag_name = none) :
    validReleases lib (r :: rs) = validReleases lib rs := by
  simp [validReleases, coerceRelease, valid, h]

theorem resolveReleases_unfold (lib : Semver) (releases : List (Release String))
    (range : String) :
    resolveReleases lib releases range =
      if range = "latest" then
        selectRelease lib (validReleases lib releases)
          ((validReleases lib releases).map (fun release => release.tag_name))
      else if lib.validRange range then
        if (((validReleases lib releases).map (fun release => release.tag_name)).filter
            (satisfiesTag lib range)).length = 0 then
          .rejected ("Could not find a version that satisfies range " ++ range)
        else
          selectRelease lib (validReleases lib releases)
            (((validReleases lib releases).map (fun release => release.tag_name)).filter
              (satisfiesTag lib range))
      else
        .rejected ("Provided range " ++ range ++ " is not valid semver string") := by
  have hf : filterThrowing
      (fun version => (getVersion version).map (fun v => lib.satisfies v range))
      ((validReleases lib releases).map (fun release => release.tag_name)) =
      some (((validReleases lib releases).map (fun release => release.tag_name)).filter
        (satisfiesTag lib range)) := by
    apply filterThrowing_eq_filter
    intro a ha
    rw [List.mem_map] at ha
    obtain ⟨x, hx, rfl⟩ := ha
    have hv := valid_of_mem_validReleases lib releases x hx
    cases htag : x.tag_name with
    | none => simp [htag, valid] at hv
    | some v => simp [getVersion, satisfiesTag]
  unfold resolveReleases
  simp only [validReleases] at hf ⊢
  rw [hf]

theorem validReleases_append (lib : Semver) (as bs : List (Release String)) :
    validReleases lib (as ++ bs) = validReleases lib as ++ validReleases lib bs := by
  simp [validReleases]

theorem mem_validReleases (lib : Semver) (releases : List (Release String))
    (x : Release (Option SemVer)) (hx : x ∈ validReleases lib releases) :
    ∃ r ∈ releases, ∃ v, lib.coerce r.tag_name = some v ∧ x = coerceRelease lib r ∧
      x.tag_name = some v := by
  simp only [validReleases, List.mem_filter, List.mem_map] at hx
  obtain ⟨⟨r, hr, rfl⟩, hv⟩ := hx
  cases hc : lib.coerce r.tag_name with
  | none => simp [coerceRelease, hc, valid] at hv
  | some v => exact ⟨r, hr, v, hc, rfl, by simp [coerceRelease, hc]⟩

theorem validReleases_eq_nil (lib : Semver) (releases : List (Release String))
    (hnone : ∀ r ∈ releases, lib.coerce r.tag_name = none) :
    validReleases lib releases = [] := by
  induction releases with
  | nil => rfl
  | cons r rs ih =>
    rw [validReleases_cons_none lib r rs (hnone r (List.mem_cons_self r rs))]
    exact ih (fun x hx => hnone x (List.mem_cons_of_mem r hx))

theorem selectRelease_latest (lib : Semver)
    (heq : ∀ (tag : String) (v : SemVer), lib.coerce tag = some v → lib.eq v.version v = true)
    (releases : List (Release String)) :
    selectRelease lib (validReleases lib releases)
        ((validReleases lib releases).map (fun release => release.tag_name)) =
      match releases.find? (fun r => (lib.coerce r.tag_name).isSome) with
      | some first => .resolved (some (coerceRelease lib first))
      | none => .pending := by
  induction releases with
  | nil => rfl
  | cons r rs ih =>
    cases hc : lib.coerce r.tag_name with
    | none =>
      rw [validReleases_cons_none lib r rs hc, ih]
      simp [List.find?, hc]
    | some v =>
      rw [validReleases_cons_some lib r rs v hc]
      simp [selectRelease, getVersion, coerceRelease, hc, valid, heq _ v hc, List.find?]

theorem rangeFilter_nil (lib : Semver) (range : String) (releases : List (Release String))
    (hnone : ∀ a ∈ releases, satisfiesTag lib range (lib.coerce a.tag_name) = false) :
    ((validReleases lib releases).map (fun release => release.tag_name)).filter
        (satisfiesTag lib range) = [] := by
  rw [List.filter_eq_nil_iff]
  intro t ht
  rw [List.mem_map] at ht
  obtain ⟨x, hx, rfl⟩ := ht
  obtain ⟨a, ha, va, hva, -, htag⟩ := mem_validReleases lib releases x hx
  have := hnone a ha
  rw [hva] at this
  rw [htag]
  simp [this]

theorem selectRelease_range (lib : Semver) (hlib : lib.Lawful) (range : String)
    (as bs : List (Release String)) (first : Release String) (v : SemVer)
    (hfirst : lib.coerce first.tag_name = some v)
    (hsat : lib.satisfies v.version range = true)
    (hbefore : ∀ a ∈ as, satisfiesTag lib range (lib.coerce a.tag_name) = false) :
    ∃ rest,
      ((validReleases lib (as ++ first :: bs)).map (fun release => release.tag_name)).filter
        (satisfiesTag lib range) = some v :: rest ∧
      selectRelease lib (validReleases lib (as ++ first :: bs)) (some v :: rest) =
        .resolved (some (coerceRelease lib first)) := by
  have hpre := rangeFilter_nil lib range as hbefore
  have hfind : (validReleases lib as).find? (eqCallback lib v.version) = none := by
    rw [List.find?_eq_none]
    intro x hx
    obtain ⟨a, ha, va, hva, -, htag⟩ := mem_validReleases lib as x hx
    have hns := hbefore a ha
    rw [hva] at hns
    simp only [satisfiesTag] at hns
    intro hcb
    simp only [eqCallback, htag, valid, if_true] at hcb
    have := hlib.satisfies_of_eq _ _ v va range hfirst hva hcb
    rw [hsat] at this
    rw [this] at hns
    exact Bool.noConfusion hns
  refine ⟨((validReleases lib bs).map (fun release => release.tag_name)).filter
      (satisfiesTag lib range), ?_, ?_⟩
  · rw [validReleases_append, validReleases_cons_some lib first bs v hfirst, List.map_append,
      List.filter_append, hpre]
    simp [coerceRelease, hfirst, satisfiesTag, hsat]
  · rw [validReleases_append, validReleases_cons_some lib first bs v hfirst]
    have hcb : eqCallback lib v.version (coerceRelease lib first) = true := by
      simp [eqCallback, coerceRelease, hfirst, valid, hlib.eq_self _ v hfirst]
    show Promise.resolved (List.find? (eqCallback lib v.version) _) = _
    rw [List.find?_append, hfind, List.find?_cons_of_pos _ hcb]
    rfl

theorem getReleaseByVersion_of_list {ε : Type} (lib : Semver)
    (rpGet : String → Promise ε (List (Release String))) (repo : String)
    (releases : List (Release String)) (range : Option String)
    (hlist : getReleaseList rpGet repo = .resolved releases) :
    getReleaseByVersion lib rpGet repo range =
      resolveReleases lib releases (range.getD "latest") := by
  simp only [getReleaseByVersion, hlist]

theorem resolveReleases_latest_pending (lib : Semver) (releases : List (Release String))
    (hnone : ∀ r ∈ releases, lib.coerce r.tag_name = none) :
    resolveReleases lib releases "latest" = .pending := by
  rw [resolveReleases_unfold, if_pos rfl, validReleases_eq_nil lib releases hnone]
  rfl

/-! ## Claims on getReleaseByVersion -/

/-- C1, as stated, fails: a release list with at least one release, none of whose tags
coerces to a version, leaves the promise of `getReleaseByVersion(repo, 'latest')`
pending, so it does not resolve with any release. -/
theorem latest_not_resolved_without_valid_tag :
    [sampleRelease "nightly"] ≠ [] ∧
    getReleaseList (fun _ => (Promise.resolved [sampleRelease "nightly"] :
        Promise String (List (Release String)))) "owner/name" =
      .resolved [sampleRelease "nightly"] ∧
    getReleaseByVersion sampleSemver (fun _ => (Promise.resolved [sampleRelease "nightly"] :
        Promise String (List (Release String)))) "owner/name" (some "latest") = .pending ∧
    ¬ ∃ release, getReleaseByVersion sampleSemver
        (fun _ => (Promise.resolved [sampleRelease "nightly"] :
          Promise String (List (Release String)))) "owner/name" (some "latest") =
        .resolved release := by
  have h : getReleaseByVersion sampleSemver
      (fun _ => (Promise.resolved [sampleRelease "nightly"] :
        Promise String (List (Release String)))) "owner/name" (some "latest") = .pending := by
    decide
  refine ⟨by simp, rfl, h, ?_⟩
  rintro ⟨release, hr⟩
  rw [h] at hr
  exact Promise.noConfusion hr

/-- C1, amended: when the release list returned by `getReleaseList` contains at least one
release whose tag coerces to a version, `getReleaseByVersion(repo, 'latest')` (also with
the range omitted) resolves with the first such release in the order of the list: every
release before it has a tag that does not coerce.  The semver package is assumed to find
a coerced version `eq` to itself. -/
theorem getReleaseByVersion_latest {ε : Type} (lib : Semver)
    (heq : ∀ (tag : String) (v : SemVer), lib.coerce tag = some v → lib.eq v.version v = true)
    (rpGet : String → Promise ε (List (Release String))) (repo : String)
    (releases : List (Release String))
    (hlist : getReleaseList rpGet repo = .resolved releases)
    (hvalid : ∃ r ∈ releases, (lib.coerce r.tag_name).isSome = true) :
    ∃ before first after,
      releases = before ++ first :: after ∧
      (∀ b ∈ before, lib.coerce b.tag_name = none) ∧
      (lib.coerce first.tag_name).isSome = true ∧
      getReleaseByVersion lib rpGet repo (some "latest") =
        .resolved (some (coerceRelease lib first)) ∧
      getReleaseByVersion lib rpGet repo none =
        .resolved (some (coerceRelease lib first)) := by
  have hsome : (releases.find? (fun r => (lib.coerce r.tag_name).isSome)).isSome = true := by
    rw [List.find?_isSome]
    obtain ⟨r, hr, hv⟩ := hvalid
    exact ⟨r, hr, hv⟩
  obtain ⟨first, hfirst⟩ := Option.isSome_iff_exists.mp hsome
  obtain ⟨hp, before, after, hsplit, hbefore⟩ := List.find?_eq_some.mp hfirst
  have hres : resolveReleases lib releases "latest" =
      .resolved (some (coerceRelease lib first)) := by
    rw [resolveReleases_unfold, if_pos rfl, selectRelease_latest lib heq, hfirst]
  refine ⟨before, first, after, hsplit, ?_, hp, ?_, ?_⟩
  · intro b hb
    have := hbefore b hb
    simpa using this
  · rw [getReleaseByVersion_of_list lib rpGet repo releases _ hlist]
    exact hres
  · rw [getReleaseByVersion_of_list lib rpGet repo releases _ hlist]
    exact hres

/-- Witness for C1 (amended) on the sample list, whose first tag does not coerce. -/
theorem getReleaseByVersion_latest_witness :
    ∃ before first after,
      sampleReleases = before ++ first :: after ∧
      (∀ b ∈ before, sampleSemver.coerce b.tag_name = none) ∧
      (sampleSemver.coerce first.tag_name).isSome = true ∧
      getReleaseByVersion sampleSemver sampleRpGet "owner/name" (some "latest") =
        .resolved (some (coerceRelease sampleSemver first)) ∧
      getReleaseByVersion sampleSemver sampleRpGet "owner/name" none =
        .resolved (some (coerceRelease sampleSemver first)) :=
  getReleaseByVersion_latest sampleSemver sampleSemver_lawful.eq_self sampleRpGet
    "owner/name" sampleReleases rfl ⟨sampleRelease "v1.0.4", by decide, by decide⟩

/-- C2: for a range that is not `'latest'` and is a valid range, when some release has a
coerced tag satisfying the range, `getReleaseByVersion(repo, range)` resolves with the
first release of the list whose coerced tag satisfies it: no release before it has a
coerced tag satisfying the range.  The semver package is assumed lawful
(`Semver.Lawful`). -/
theorem getReleaseByVersion_range {ε : Type} (lib : Semver) (hlib : lib.Lawful)
    (rpGet : String → Promise ε (List (Release String))) (repo : String)
    (releases : List (Release String)) (range : String)
    (hlist : getReleaseList rpGet repo = .resolved releases)
    (hlatest : range ≠ "latest") (hrange : lib.validRange range = true)
    (hsome : ∃ r ∈ releases, ∃ v, lib.coerce r.tag_name = some v ∧
      lib.satisfies v.version range = true) :
    ∃ before first after v,
      releases = before ++ first :: after ∧
      (∀ b ∈ before, ∀ w, lib.coerce b.tag_name = some w →
        lib.satisfies w.version range = false) ∧
      lib.coerce first.tag_name = some v ∧
      lib.satisfies v.version range = true ∧
      getReleaseByVersion lib rpGet repo (some range) =
        .resolved (some (coerceRelease lib first)) := by
  have hfound : (releases.find?
      (fun r => satisfiesTag lib range (lib.coerce r.tag_name))).isSome = true := by
    rw [List.find?_isSome]
    obtain ⟨r, hr, v, hv, hs⟩ := hsome
    exact ⟨r, hr, by simp [satisfiesTag, hv, hs]⟩
  obtain ⟨first, hfirst⟩ := Option.isSome_iff_exists.mp hfound
  obtain ⟨hp, before, after, hsplit, hbefore⟩ := List.find?_eq_some.mp hfirst
  have hbefore2 : ∀ a ∈ before, satisfiesTag lib range (lib.coerce a.tag_name) = false := by
    intro a ha
    have := hbefore a ha
    simpa using this
  cases hc : lib.coerce first.tag_name with
  | none => simp [hc, satisfiesTag] at hp
  | some v =>
    have hsat : lib.satisfies v.version range = true := by
      simpa [hc, satisfiesTag] using hp
    obtain ⟨rest, hfilter, hselect⟩ :=
      selectRelease_range lib hlib range before after first v hc hsat hbefore2
    refine ⟨before, first, after, v, hsplit, ?_, hc, hsat, ?_⟩
    · intro b hb w hw
      have := hbefore2 b hb
      simpa [hw, satisfiesTag] using this
    · rw [getReleaseByVersion_of_list lib rpGet repo releases _ hlist]
      show resolveReleases lib releases range = _
      rw [resolveReleases_unfold, if_neg hlatest, if_pos hrange, hsplit, hfilter]
      simp only [List.length_cons, Nat.succ_ne_zero, if_false]
      exact hselect

/-- Witness for C2 on the sample list with the range `^1.0`. -/
theorem getReleaseByVersion_range_witness :
    ∃ before first after v,
      sampleReleases = before ++ first :: after ∧
      (∀ b ∈ before, ∀ w, sampleSemver.coerce b.tag_name = some w →
        sampleSemver.satisfies w.version "^1.0" = false) ∧
      sampleSemver.coerce first.tag_name = some v ∧
      sampleSemver.satisfies v.version "^1.0" = true ∧
      getReleaseByVersion sampleSemver sampleRpGet "owner/name" (some "^1.0") =
        .resolved (some (coerceRelease sampleSemver first)) :=
  getReleaseByVersion_range sampleSemver sampleSemver_lawful sampleRpGet "owner/name"
    sampleReleases "^1.0" rfl (by decide) (by decide)
    ⟨sampleRelease "v1.0.3", by decide, ⟨1, 0, 3, "1.0.3"⟩, by decide, by decide⟩

/-- Evaluation on the sample list: `'latest'` and `^1.0` both select `v1.0.4`, the
second entry of the list, and the resolved release carries the coerced tag. -/
theorem sample_resolution :
    getReleaseByVersion sampleSemver sampleRpGet "owner/name" none =
      .resolved (some (coerceRelease sampleSemver (sampleRelease "v1.0.4"))) ∧
    getReleaseByVersion sampleSemver sampleRpGet "owner/name" (some "^1.0") =
      .resolved (some (coerceRelease sampleSemver (sampleRelease "v1.0.4"))) := by
  decide

/-- C5: for a constraint that is not `'latest'` and not a valid range, and for every
release list, `getReleaseByVersion` rejects with the message
`Provided range <c> is not valid semver string`; the outcome is the same whatever
`semver.satisfies` would answer, so no range filtering is involved. -/
theorem getReleaseByVersion_invalid_range {ε : Type} (lib : Semver)
    (rpGet : String → Promise ε (List (Release String))) (repo : String)
    (releases : List (Release String)) (c : String)
    (hlist : getReleaseList rpGet repo = .resolved releases)
    (hlatest : c ≠ "latest") (hrange : lib.validRange c = false) :
    getReleaseByVersion lib rpGet repo (some c) =
      .rejected ("Provided range " ++ c ++ " is not valid semver string") ∧
    ∀ satisfies : String → String → Bool,
      getReleaseByVersion { lib with satisfies := satisfies } rpGet repo (some c) =
        .rejected ("Provided range " ++ c ++ " is not valid semver string") := by
  constructor
  · rw [getReleaseByVersion_of_list lib rpGet repo releases _ hlist]
    show resolveReleases lib releases c = _
    rw [resolveReleases_unfold, if_neg hlatest, hrange]
    rfl
  · intro satisfies
    rw [getReleaseByVersion_of_list _ rpGet repo releases _ hlist]
    show resolveReleases _ releases c = _
    rw [resolveReleases_unfold, if_neg hlatest]
    simp only [hrange]
    rfl

/-- Witness for C5 on the sample list and on the empty list with the constraint `abc`. -/
theorem getReleaseByVersion_invalid_range_witness :
    (getReleaseByVersion sampleSemver sampleRpGet "owner/name" (some "abc") =
      .rejected ("Provided range " ++ "abc" ++ " is not valid semver string") ∧
    ∀ satisfies : String → String → Bool,
      getReleaseByVersion { sampleSemver with satisfies := satisfies } sampleRpGet
          "owner/name" (some "abc") =
        .rejected ("Provided range " ++ "abc" ++ " is not valid semver string")) ∧
    getReleaseByVersion sampleSemver
        (fun _ => (Promise.resolved [] : Promise String (List (Release String))))
        "owner/name" (some "abc") =
      .rejected "Provided range abc is not valid semver string" :=
  ⟨getReleaseByVersion_invalid_range sampleSemver sampleRpGet "owner/name" sampleReleases
      "abc" rfl (by decide) (by decide),
    (getReleaseByVersion_invalid_range sampleSemver
      (fun _ => (Promise.resolved [] : Promise String (List (Release String))))
      "owner/name" [] "abc" rfl (by decide) (by decide)).1⟩

/-- C6: for a valid range other than `'latest'` that no coerced tag of the list
satisfies, `getReleaseByVersion` rejects with the message
`Could not find a version that satisfies range <r>` and does not resolve with any
value. -/
theorem getReleaseByVersion_unsatisfied_range {ε : Type} (lib : Semver)
    (rpGet : String → Promise ε (List (Release String))) (repo : String)
    (releases : List (Release String)) (r : String)
    (hlist : getReleaseList rpGet repo = .resolved releases)
    (hlatest : r ≠ "latest") (hrange : lib.validRange r = true)
    (hnone : ∀ x ∈ releases, ∀ v, lib.coerce x.tag_name = some v →
      lib.satisfies v.version r = false) :
    getReleaseByVersion lib rpGet repo (some r) =
      .rejected ("Could not find a version that satisfies range " ++ r) ∧
    ∀ value, getReleaseByVersion lib rpGet repo (some r) ≠ .resolved value := by
  have hres : getReleaseByVersion lib rpGet repo (some r) =
      .rejected ("Could not find a version that satisfies range " ++ r) := by
    have hnil := rangeFilter_nil lib r releases (by
      intro a ha
      cases hc : lib.coerce a.tag_name with
      | none => rfl
      | some v => simpa [satisfiesTag] using hnone a ha v hc)
    rw [getReleaseByVersion_of_list lib rpGet repo releases _ hlist]
    show resolveReleases lib releases r = _
    rw [resolveReleases_unfold, if_neg hlatest, if_pos hrange, hnil]
    rfl
  refine ⟨hres, ?_⟩
  intro value hv
  rw [hres] at hv
  exact Promise.noConfusion hv

/-- Witness for C6 on the sample list with the range `^7.0`. -/
theorem getReleaseByVersion_unsatisfied_range_witness :
    getReleaseByVersion sampleSemver sampleRpGet "owner/name" (some "^7.0") =
      .rejected ("Could not find a version that satisfies range " ++ "^7.0") ∧
    ∀ value, getReleaseByVersion sampleSemver sampleRpGet "owner/name" (some "^7.0") ≠
      .resolved value :=
  getReleaseByVersion_unsatisfied_range sampleSemver sampleRpGet "owner/name"
    sampleReleases "^7.0" rfl (by decide) (by decide)
    (by intro x _ v _; simp [sampleSemver])

/-- C8 fails on the code: the promise of `getReleaseByVersion` stays pending when the
listing fails (the failure is not passed on), when the list is empty and when no tag of
the list coerces to a version, with the default range `'latest'`. -/
theorem getReleaseByVersion_stays_pending :
    getReleaseByVersion sampleSemver
        (fun _ => (Promise.rejected "ECONNREFUSED" : Promise String (List (Release String))))
        "owner/name" none = .pending ∧
    getReleaseByVersion sampleSemver
        (fun _ => (Promise.rejected "ECONNREFUSED" : Promise String (List (Release String))))
        "owner/name" (some "^1.0") = .pending ∧
    getReleaseByVersion sampleSemver
        (fun _ => (Promise.resolved [] : Promise String (List (Release String))))
        "owner/name" none = .pending ∧
    getReleaseByVersion sampleSemver
        (fun _ => (Promise.resolved [sampleRelease "nightly"] :
          Promise String (List (Release String))))
        "owner/name" none = .pending := by
  decide

/-- The two ways in which the promise of `getReleaseByVersion` is left pending, for every
semver package: a listing that fails, and a list without any tag that coerces. -/
theorem getReleaseByVersion_pending_cases {ε : Type} (lib : Semver)
    (rpGet : String → Promise ε (List (Release String))) (repo : String) :
    (∀ err range, getReleaseList rpGet repo = .rejected err →
      getReleaseByVersion lib rpGet repo range = .pending) ∧
    (∀ releases, getReleaseList rpGet repo = .resolved releases →
      (∀ r ∈ releases, lib.coerce r.tag_name = none) →
      getReleaseByVersion lib rpGet repo none = .pending) := by
  constructor
  · intro err range h
    simp only [getReleaseByVersion, h]
  · intro releases h hnone
    rw [getReleaseByVersion_of_list lib rpGet repo releases _ h]
    exact resolveReleases_latest_pending lib releases hnone

/-! ## Lemmas on the asset matcher -/

theorem startsWith_nil (hay : List Char) : startsWith [] hay = true := by
  cases hay <;> rfl

theorem startsWith_append (needle post : List Char) :
    startsWith needle (needle ++ post) = true := by
  induction needle with
  | nil => exact startsWith_nil _
  | cons c cs ih => simp [startsWith, ih]

theorem includesChars_of_startsWith (needle hay : List Char)
    (h : startsWith needle hay = true) : includesChars needle hay = true := by
  cases hay with
  | nil => simpa [includesChars] using h
  | cons c cs => simp [includesChars, h]

theorem includesChars_append (needle pre post : List Char) :
    includesChars needle (pre ++ needle ++ post) = true := by
  induction pre with
  | nil =>
    rw [List.nil_append]
    exact includesChars_of_startsWith _ _ (startsWith_append needle post)
  | cons c cs ih =>
    rw [List.cons_append, List.cons_append]
    simp only [includesChars, ih, Bool.or_true]

theorem includes_empty (s : String) : includes s "" = true :=
  includesChars_of_startsWith _ _ (startsWith_nil _)

theorem includes_append (pre s post : String) : includes (pre ++ s ++ post) s = true := by
  simp only [includes, String.data_append]
  exact includesChars_append _ _ _

theorem getLast?_filter_split {α : Type} (p : α → Bool) (l : List α)
    (h : ∃ a ∈ l, p a = true) :
    ∃ before a after, l = before ++ a :: after ∧ p a = true ∧
      (∀ x ∈ after, p x = false) ∧ (l.filter p).getLast? = some a := by
  induction l with
  | nil =>
    obtain ⟨a, ha, -⟩ := h
    cases ha
  | cons x xs ih =>
    by_cases hxs : ∃ a ∈ xs, p a = true
    · obtain ⟨before, a, after, hsplit, hpa, hafter, hlast⟩ := ih hxs
      refine ⟨x :: before, a, after, by rw [hsplit]; rfl, hpa, hafter, ?_⟩
      have hne : xs.filter p ≠ [] := by
        intro hnil
        rw [hnil] at hlast
        cases hlast
      cases hpx : p x with
      | false => rw [List.filter_cons_of_neg (by simp [hpx])]; exact hlast
      | true =>
        rw [List.filter_cons_of_pos hpx]
        obtain ⟨y, ys, hys⟩ := List.exists_cons_of_ne_nil hne
        rw [hys] at hlast ⊢
        rw [List.getLast?_cons_cons]
        exact hlast
    · have hall : ∀ y ∈ xs, p y = false := by
        intro y hy
        cases hpy : p y with
        | false => rfl
        | true => exact absurd ⟨y, hy, hpy⟩ hxs
      have hpx : p x = true := by
        obtain ⟨a, ha, hpa⟩ := h
        rcases List.mem_cons.mp ha with rfl | hmem
        · exact hpa
        · rw [hall a hmem] at hpa
          cases hpa
      refine ⟨[], x, xs, rfl, hpx, hall, ?_⟩
      have hnil : xs.filter p = [] := by
        rw [List.filter_eq_nil_iff]
        intro y hy
        simp [hall y hy]
      rw [List.filter_cons_of_pos hpx, hnil]
      rfl

theorem getAssetByPlatformArch_eq {τ : Type} (host : Host) (release : Release τ)
    (platform arch : Option String) :
    getAssetByPlatformArch host release platform arch =
      match (release.assets.filter (assetMatches (platform.getD host.platform)
          (rewriteArch (arch.getD host.arch)))).getLast? with
      | some asset => .resolved asset
      | none => .rejected ("An asset could not be found for platform " ++
          platform.getD host.platform ++ " with arch " ++ rewriteArch (arch.getD host.arch)) :=
  rfl

/-! ## Claims on getAssetByPlatformArch -/

/-- C3: with `arch` rewritten to `64` when it is `x64`, if some asset name contains the
platform and the rewritten arch, `getAssetByPlatformArch` resolves with the last such
asset in the order of the release: no asset after it matches.  With platform `''` and
arch `''` the last asset of a non-empty list is selected.  Omitted arguments take the
values of the host. -/
theorem getAssetByPlatformArch_last_match {τ : Type} (host : Host) (release : Release τ)
    (platform arch : Option String) :
    ((∃ a ∈ release.assets,
        includes a.name (platform.getD host.platform) = true ∧
        includes a.name (rewriteArch (arch.getD host.arch)) = true) →
      ∃ before asset after,
        release.assets = before ++ asset :: after ∧
        includes asset.name (platform.getD host.platform) = true ∧
        includes asset.name (rewriteArch (arch.getD host.arch)) = true ∧
        (∀ x ∈ after, ¬ (includes x.name (platform.getD host.platform) = true ∧
          includes x.name (rewriteArch (arch.getD host.arch)) = true)) ∧
        getAssetByPlatformArch host release platform arch = .resolved asset) ∧
    (∀ hne : release.assets ≠ [],
      getAssetByPlatformArch host release (some "") (some "") =
        .resolved (release.assets.getLast hne)) := by
  constructor
  · intro h
    have h2 : ∃ a ∈ release.assets, assetMatches (platform.getD host.platform)
        (rewriteArch (arch.getD host.arch)) a = true := by
      obtain ⟨a, ha, hp, hr⟩ := h
      exact ⟨a, ha, by simp [assetMatches, hp, hr]⟩
    obtain ⟨before, asset, after, hsplit, hm, hafter, hlast⟩ :=
      getLast?_filter_split _ release.assets h2
    simp only [assetMatches, Bool.and_eq_true] at hm
    refine ⟨before, asset, after, hsplit, hm.1, hm.2, ?_, ?_⟩
    · intro x hx hxm
      have := hafter x hx
      simp [assetMatches, hxm.1, hxm.2] at this
    · rw [getAssetByPlatformArch_eq, hlast]
  · intro hne
    rw [getAssetByPlatformArch_eq]
    have hall : release.assets.filter
        (assetMatches ((some "").getD host.platform) (rewriteArch ((some "").getD host.arch))) =
        release.assets := by
      rw [List.filter_eq_self]
      intro a _
      have hr : rewriteArch "" = "" := by decide
      simp only [Option.getD_some, hr, assetMatches, includes_empty, Bool.and_self]
    rw [hall, List.getLast?_eq_getLast _ hne]

/-- Witness for C3: the host defaults `linux`/`x64` on a sample release, whose matching
assets are the first two of three. -/
theorem getAssetByPlatformArch_last_match_witness :
    (∃ before asset after,
        (sampleRelease "v1.0.4").assets = before ++ asset :: after ∧
        includes asset.name "linux" = true ∧
        includes asset.name "64" = true ∧
        (∀ x ∈ after, ¬ (includes x.name "linux" = true ∧ includes x.name "64" = true)) ∧
        getAssetByPlatformArch sampleHost (sampleRelease "v1.0.4") none none =
          .resolved asset) ∧
    getAssetByPlatformArch sampleHost (sampleRelease "v1.0.4") none none =
      .resolved ⟨"https://example.org/v1.0.4/linux", "app-linux-amd64.tar.gz",
        "application/gzip", 10⟩ :=
  ⟨(getAssetByPlatformArch_last_match sampleHost (sampleRelease "v1.0.4") none none).1
      ⟨⟨"https://example.org/v1.0.4/linux", "app-linux-amd64.tar.gz", "application/gzip", 10⟩,
        by decide, by decide, by decide⟩,
    by decide⟩

/-- C7, as stated, fails: for the requested arch `x64` the rejection message names the
arch `64`; it differs from the message with the requested arch and does not contain
`x64`. -/
theorem getAssetByPlatformArch_message_x64 :
    (∀ a ∈ (sampleRelease "v1.0.4").assets,
      ¬ (includes a.name "aix" = true ∧ includes a.name (rewriteArch "x64") = true)) ∧
    getAssetByPlatformArch sampleHost (sampleRelease "v1.0.4") (some "aix") (some "x64") =
      .rejected "An asset could not be found for platform aix with arch 64" ∧
    getAssetByPlatformArch sampleHost (sampleRelease "v1.0.4") (some "aix") (some "x64") ≠
      .rejected "An asset could not be found for platform aix with arch x64" ∧
    includes "An asset could not be found for platform aix with arch 64" "x64" = false := by
  decide

/-- C7, amended: when no asset matches, `getAssetByPlatformArch` rejects with the message
`An asset could not be found for platform P with arch A`, where `P` is the requested
platform and `A` is the arch after the rewriting (`64` for `x64`, the requested arch
otherwise); the message contains `P` and `A`. -/
theorem getAssetByPlatformArch_no_match {τ : Type} (host : Host) (release : Release τ)
    (platform arch : Option String)
    (hnone : ∀ a ∈ release.assets,
      ¬ (includes a.name (platform.getD host.platform) = true ∧
        includes a.name (rewriteArch (arch.getD host.arch)) = true)) :
    getAssetByPlatformArch host release platform arch =
      .rejected ("An asset could not be found for platform " ++ platform.getD host.platform ++
        " with arch " ++ rewriteArch (arch.getD host.arch)) ∧
    (arch.getD host.arch ≠ "x64" → rewriteArch (arch.getD host.arch) = arch.getD host.arch) ∧
    (arch.getD host.arch = "x64" → rewriteArch (arch.getD host.arch) = "64") ∧
    includes ("An asset could not be found for platform " ++ platform.getD host.platform ++
        " with arch " ++ rewriteArch (arch.getD host.arch)) (platform.getD host.platform) = true ∧
    includes ("An asset could not be found for platform " ++ platform.getD host.platform ++
        " with arch " ++ rewriteArch (arch.getD host.arch))
      (rewriteArch (arch.getD host.arch)) = true := by
  have hnil : release.assets.filter (assetMatches (platform.getD host.platform)
      (rewriteArch (arch.getD host.arch))) = [] := by
    rw [List.filter_eq_nil_iff]
    intro a ha hm
    simp only [assetMatches, Bool.and_eq_true] at hm
    exact hnone a ha hm
  refine ⟨?_, ?_, ?_, ?_, ?_⟩
  · rw [getAssetByPlatformArch_eq, hnil]
    rfl
  · intro h
    simp [rewriteArch, h]
  · intro h
    simp [rewriteArch, h]
  · rw [String.append_assoc _ " with arch " _]
    exact includes_append _ _ _
  · have := includes_append ("An asset could not be found for platform " ++
      platform.getD host.platform ++ " with arch ") (rewriteArch (arch.getD host.arch)) ""
    simpa using this

/-- Witness for C7 (amended): the test of the repository, platform `aix` with arch
`s390x`. -/
theorem getAssetByPlatformArch_no_match_witness :
    getAssetByPlatformArch sampleHost (sampleRelease "v1.0.4") (some "aix") (some "s390x") =
      .rejected "An asset could not be found for platform aix with arch s390x" :=
  (getAssetByPlatformArch_no_match sampleHost (sampleRelease "v1.0.4")
    (some "aix") (some "s390x") (by decide)).1

/-! ## Lemmas on the download -/

theorem foldl_step_resolved (host : Host) (url name dir : String) (progress : Progress)
    (events : List StreamEvent) (d : Download) (path : String)
    (h : d.promise = .resolved path) :
    (events.foldl (Download.step host url name dir progress) d).promise = .resolved path := by
  induction events generalizing d with
  | nil => exact h
  | cons e es ih =>
    apply ih
    cases e <;> simp [Download.step, h, Promise.settle]

theorem foldl_step_no_error (host : Host) (url name dir : String) (progress : Progress)
    (events : List StreamEvent) (d : Download)
    (hd : d.promise = .pending ∨ d.promise = .resolved (host.join dir name))
    (hev : ∀ e ∈ events, e.isError = false) :
    (events.foldl (Download.step host url name dir progress) d).promise = .pending ∨
    (events.foldl (Download.step host url name dir progress) d).promise =
      .resolved (host.join dir name) := by
  induction events generalizing d with
  | nil => exact hd
  | cons e es ih =>
    apply ih
    · cases e with
      | data chunk => simpa [Download.step] using hd
      | error err =>
        have := hev (.error err) (List.mem_cons_self _ _)
        simp [StreamEvent.isError] at this
      | finished =>
        rcases hd with hd | hd <;> simp [Download.step, hd, Promise.settle]
    · exact fun x hx => hev x (List.mem_cons_of_mem e hx)

theorem foldl_step_calls (host : Host) (url name dir : String)
    (events : List StreamEvent) (d : Download) :
    (events.foldl (Download.step host url name dir .callback) d).calls =
      d.calls ++ (chunksOf events).map List.length ∧
    (events.foldl (Download.step host url name dir .callback) d).written =
      d.written ++ (chunksOf events).flatten := by
  induction events generalizing d with
  | nil => simp [chunksOf]
  | cons e es ih =>
    rw [List.foldl_cons]
    obtain ⟨h1, h2⟩ := ih (Download.step host url name dir .callback d e)
    rw [h1, h2]
    cases e <;> simp [Download.step, chunksOf]

/-! ## Claims on downloadAsset -/

/-- C9: when the events of the response contain `end` with no `error` before it, and
`progress` is omitted, `null` or a function, `downloadAsset` resolves with
`path.join(dir, name)`, where `dir` is `process.cwd()` when it is omitted. -/
theorem downloadAsset_resolves_path (host : Host) (requestGet : String → List StreamEvent)
    (url name : String) (dir : Option String) (progress : Progress)
    (before after : List StreamEvent)
    (hprogress : progress ≠ .other)
    (hevents : requestGet url = before ++ StreamEvent.finished :: after)
    (hbefore : ∀ e ∈ before, e.isError = false) :
    (downloadAsset host requestGet url name dir progress).promise =
      .resolved (host.join (dir.getD host.cwd) name) := by
  have hstart : (Download.start host name (dir.getD host.cwd) progress).promise = .pending := by
    cases progress with
    | other => exact absurd rfl hprogress
    | null => rfl
    | callback => rfl
  have hpre := foldl_step_no_error host url name (dir.getD host.cwd) progress before
    (Download.start host name (dir.getD host.cwd) progress) (Or.inl hstart) hbefore
  simp only [downloadAsset, hevents, List.foldl_append, List.foldl_cons]
  apply foldl_step_resolved
  rcases hpre with h | h <;> simp [Download.step, h, Promise.settle]

/-- Witness for C9: a body of two chunks, with the directory omitted and with a custom
directory. -/
theorem downloadAsset_resolves_path_witness :
    (downloadAsset sampleHost (fun _ => sampleEvents) "http://some.file/testfile.txt"
      "testfile.txt").promise = .resolved "/tmp/testfile.txt" ∧
    (downloadAsset sampleHost (fun _ => sampleEvents) "http://some.file/testfile.txt"
      "testfile.txt" (some "/home/user")).promise = .resolved "/home/user/testfile.txt" :=
  ⟨downloadAsset_resolves_path sampleHost (fun _ => sampleEvents)
      "http://some.file/testfile.txt" "testfile.txt" none .null
      [.data [1, 2, 3], .data [4, 5]] [] (by decide) rfl (by decide),
    downloadAsset_resolves_path sampleHost (fun _ => sampleEvents)
      "http://some.file/testfile.txt" "testfile.txt" (some "/home/user") .null
      [.data [1, 2, 3], .data [4, 5]] [] (by decide) rfl (by decide)⟩

/-- C10: when `progress` is a function, `downloadAsset` calls it once per chunk of the
response, in the order of arrival, with the length of the chunk: the number of calls is
the number of chunks and the sum of the arguments is the number of bytes received, which
is also the number of bytes piped into the file. -/
theorem downloadAsset_progress_calls (host : Host) (requestGet : String → List StreamEvent)
    (url name : String) (dir : Option String) :
    (downloadAsset host requestGet url name dir .callback).calls =
      (chunksOf (requestGet url)).map List.length ∧
    (downloadAsset host requestGet url name dir .callback).calls.length =
      (chunksOf (requestGet url)).length ∧
    (downloadAsset host requestGet url name dir .callback).calls.sum =
      (chunksOf (requestGet url)).flatten.length ∧
    (downloadAsset host requestGet url name dir .callback).written =
      (chunksOf (requestGet url)).flatten := by
  obtain ⟨h1, h2⟩ := foldl_step_calls host url name (dir.getD host.cwd) (requestGet url)
    (Download.start host name (dir.getD host.cwd) .callback)
  have hc : (downloadAsset host requestGet url name dir .callback).calls =
      (chunksOf (requestGet url)).map List.length := by
    simpa [downloadAsset, Download.start] using h1
  have hw : (downloadAsset host requestGet url name dir .callback).written =
      (chunksOf (requestGet url)).flatten := by
    simpa [downloadAsset, Download.start] using h2
  refine ⟨hc, ?_, ?_, hw⟩
  · rw [hc, List.length_map]
  · rw [hc, List.length_flatten]

/-- Evaluation of a download with a progress function on a body of two chunks. -/
theorem sample_download :
    downloadAsset sampleHost (fun _ => sampleEvents) "http://some.file/testfile.txt"
      "testfile.txt" (some "/tmp") .callback =
    { promise := .resolved "/tmp/testfile.txt"
      calls := [3, 2]
      target := "/tmp/testfile.txt"
      written := [1, 2, 3, 4, 5] } := by
  decide

/-- A `progress` that is neither `null` nor a function rejects the promise before any
event, and the later `end` event does not change it. -/
theorem sample_download_invalid_progress :
    (downloadAsset sampleHost (fun _ => sampleEvents) "http://some.file/testfile.txt"
      "testfile.txt" (some "/tmp") .other).promise =
    .rejected "Progress is not a valid callback" := by
  decide

/-! ## Claims on downloadAssetByPlatformArch -/

/-- The function returns `undefined` for all arguments. -/
theorem downloadAssetByPlatformArch_returned {ε : Type} (lib : Semver) (host : Host)
    (rpGet : String → Promise ε (List (Release String)))
    (requestGet : String → List StreamEvent)
    (repo : String) (range dir platform arch : Option String) :
    (downloadAssetByPlatformArch lib host rpGet requestGet repo range dir platform arch).returned
      = none := rfl

/-- C4 fails on the code: `downloadAssetByPlatformArch` returns `undefined`, not a
promise.  On the sample repository all three stages succeed and the download started
inside resolves with the path of the file, yet nothing is returned; when no asset
matches, the rejection is not returned either. -/
theorem downloadAssetByPlatformArch_returns_undefined :
    (downloadAssetByPlatformArch sampleSemver sampleHost sampleRpGet (fun _ => sampleEvents)
      "owner/name").returned = none ∧
    ((downloadAssetByPlatformArch sampleSemver sampleHost sampleRpGet (fun _ => sampleEvents)
      "owner/name").download.map (fun d => d.promise)) =
        some (.resolved "/tmp/app-linux-amd64.tar.gz") ∧
    downloadAssetByPlatformArch sampleSemver sampleHost sampleRpGet (fun _ => sampleEvents)
      "owner/name" (some "latest") (some "/tmp") (some "aix") (some "s390x") =
        { returned := none, download := none } := by
  decide

end Downloader
